import Mathlib

/-!
Verification development for the nanovgo 2D vector-graphics engine
(package `nanovgo`, file `nanovgo.go` plus its helpers).

Coordinates are embedded as rationals (`ℚ`): every arithmetic operation
exercised by the verified claims (transform application, scissor
intersection, point deduplication, signed polygon area, bounds folding,
stroke-width clamping) is exact field arithmetic, so the float32 program
and the rational model agree on the concrete scenarios checked below.

The repository snapshot contains `nanovgo.go` (Context methods) but not
the helper files (`transform.go`, `path.go`, `util.go`).  Definitions for
those helpers carry a doc comment starting `Modelled from the spec:` and
follow the specification's description of them; everything else is
translated from `nanovgo.go` directly.  Fields of the source structures
that no embedded operation reads or writes (paint colours, text style,
per-point direction/length computed by `normalize` for the expanders,
the write-only `commandX`/`commandY` scratch registers, and the
expansion outputs `fills`/`strokes`/`convex`/`nbevel`) are omitted; the
omissions are noted at the structure they concern.
-/

namespace Nanovgo

/-- Modelled from the spec: `minF` helper (util file missing from the
snapshot): minimum of two coordinates. -/
def minF (a b : ℚ) : ℚ := if a < b then a else b

/-- Modelled from the spec: `maxF` helper: maximum of two coordinates. -/
def maxF (a b : ℚ) : ℚ := if a > b then a else b

/-- Modelled from the spec: `absF` helper: absolute value. -/
def absF (a : ℚ) : ℚ := if a < 0 then -a else a

/-- Modelled from the spec: `clampF` helper: clamp `a` into `[mn, mx]`. -/
def clampF (a mn mx : ℚ) : ℚ := if a < mn then mn else if a > mx then mx else a

/-- 2D affine transform `[a c e; b d f; 0 0 1]`, stored as in the source
as six scalars `t0 … t5` (`TransformMatrix [6]float32`). -/
structure TransformMatrix where
  t0 : ℚ
  t1 : ℚ
  t2 : ℚ
  t3 : ℚ
  t4 : ℚ
  t5 : ℚ
deriving DecidableEq, Repr

/-- Modelled from the spec: identity transform (transform file missing
from the snapshot). -/
def IdentityMatrix : TransformMatrix := ⟨1, 0, 0, 1, 0, 0⟩

/-- Modelled from the spec: translation transform. -/
def TranslateMatrix (tx ty : ℚ) : TransformMatrix := ⟨1, 0, 0, 1, tx, ty⟩

/-- Modelled from the spec: point transformation
`(x, y) ↦ (a x + c y + e, b x + d y + f)`. -/
def TransformMatrix.TransformPoint (t : TransformMatrix) (sx sy : ℚ) : ℚ × ℚ :=
  (sx * t.t0 + sy * t.t2 + t.t4, sx * t.t1 + sy * t.t3 + t.t5)

/-- Modelled from the spec: transform composition; `t.Multiply s` applies
`t` first and then `s` (`state.xform` is always the second factor at the
call sites in `nanovgo.go`, mapping local coordinates out into drawing
space). -/
def TransformMatrix.Multiply (t s : TransformMatrix) : TransformMatrix :=
  ⟨t.t0 * s.t0 + t.t1 * s.t2,
   t.t0 * s.t1 + t.t1 * s.t3,
   t.t2 * s.t0 + t.t3 * s.t2,
   t.t2 * s.t1 + t.t3 * s.t3,
   t.t4 * s.t0 + t.t5 * s.t2 + s.t4,
   t.t4 * s.t1 + t.t5 * s.t3 + s.t5⟩

/-- Modelled from the spec: compose a new operation onto the front. -/
def TransformMatrix.PreMultiply (t s : TransformMatrix) : TransformMatrix :=
  s.Multiply t

/-- Modelled from the spec: inverse transform, falling back to the
identity for a singular matrix (determinant zero; the float source uses
an epsilon test, which over exact rationals is equality with zero). -/
def TransformMatrix.Inverse (t : TransformMatrix) : TransformMatrix :=
  let det := t.t0 * t.t3 - t.t2 * t.t1
  if det = 0 then IdentityMatrix
  else
    ⟨t.t3 / det, -t.t1 / det, -t.t2 / det, t.t0 / det,
     (t.t2 * t.t5 - t.t3 * t.t4) / det, (t.t1 * t.t4 - t.t0 * t.t5) / det⟩

/-- Modelled from the spec: axis-aligned bounding intersection of the
rectangles `(ax, ay, aw, ah)` and `(bx, by, bw, bh)`; an empty overlap
yields a zero-sized rectangle at the clamped corner. -/
def intersectRects (ax ay aw ah bx byy bw bh : ℚ) : ℚ × ℚ × ℚ × ℚ :=
  let minx := maxF ax bx
  let miny := maxF ay byy
  let maxx := minF (ax + aw) (bx + bw)
  let maxy := minF (ay + ah) (byy + bh)
  (minx, miny, maxF 0 (maxx - minx), maxF 0 (maxy - miny))

/-- Scissor rectangle of a render state: its own transform plus
half-extents (`extent [2]float32`, here two named fields); a negative
extent means scissoring is disabled. -/
structure nvgScissor where
  xform : TransformMatrix
  extent1 : ℚ
  extent2 : ℚ
deriving DecidableEq, Repr

/-- Render state (`nvgState`).  Only the fields read or written by the
embedded operations are carried: transform, scissor, stroke width.  The
paint and text-style fields of the source structure are untouched by the
operations verified here and are omitted. -/
structure nvgState where
  xform : TransformMatrix
  scissor : nvgScissor
  strokeWidth : ℚ
deriving DecidableEq, Repr

/-- Go zero value of `nvgState` (pushed by `Save` on an empty stack):
every numeric field zero. -/
def nvgStateZero : nvgState :=
  { xform := ⟨0, 0, 0, 0, 0, 0⟩,
    scissor := { xform := ⟨0, 0, 0, 0, 0, 0⟩, extent1 := 0, extent2 := 0 },
    strokeWidth := 0 }

/-- Modelled from the spec: the reset render state installed by
`BeginFrame` (the `reset` helper is missing from the snapshot): identity
transform, scissoring disabled (negative extents), default stroke width
one. -/
def nvgStateReset : nvgState :=
  { xform := IdentityMatrix,
    scissor := { xform := ⟨0, 0, 0, 0, 0, 0⟩, extent1 := -1, extent2 := -1 },
    strokeWidth := 1 }

/-- `Context.Scissor` (nanovgo.go lines 204-212) as a transformation of
the render state it mutates: clamp width and height to be nonnegative,
record the rectangle-centre translation composed with the current
transform, and the half-extents. -/
def nvgState.scissorSet (s : nvgState) (x y w h : ℚ) : nvgState :=
  let w2 := maxF 0 w
  let h2 := maxF 0 h
  { s with scissor :=
      { xform := (TranslateMatrix (x + w2 * (1/2)) (y + h2 * (1/2))).Multiply s.xform,
        extent1 := w2 * (1/2),
        extent2 := h2 * (1/2) } }

/-- `Context.IntersectScissor` (nanovgo.go lines 220-236) as a
transformation of the render state: reproject the previous scissor into
the current transform space, compute its axis-aligned tent extents, and
intersect with the new rectangle.  The tent extents are written exactly
as the source computes them: `teX = ex*|p0| * ey*|p2|` and
`teY = ex*|p1| * ey*|p3|` (products of four factors). -/
def nvgState.intersectScissorSet (s : nvgState) (x y w h : ℚ) : nvgState :=
  if s.scissor.extent1 < 0 then s.scissorSet x y w h
  else
    let pXform := s.scissor.xform.Multiply s.xform.Inverse
    let ex := s.scissor.extent1
    let ey := s.scissor.extent2
    let teX := ex * absF pXform.t0 * ey * absF pXform.t2
    let teY := ex * absF pXform.t1 * ey * absF pXform.t3
    let rect := intersectRects (pXform.t4 - teX) (pXform.t5 - teY) (teX * 2) (teY * 2) x y w h
    s.scissorSet rect.1 rect.2.1 rect.2.2.1 rect.2.2.2

/-- Sub-path winding declaration: `Solid` expects counter-clockwise
(positive signed area), `Hole` clockwise (negative). -/
inductive Winding where
  | solid
  | hole
deriving DecidableEq, Repr

/-- Path command, the tagged-variant rendering of the flat float command
stream (`nvgMOVETO`/`nvgLINETO`/`nvgBEZIERTO`/`nvgCLOSE`/`nvgWINDING`
tags followed by their coordinates); the spec's design notes sanction a
discriminated union per command as long as traversal order and
baked-in-transform semantics are preserved. -/
inductive NvgCommand where
  | moveTo (x y : ℚ)
  | lineTo (x y : ℚ)
  | bezierTo (c1x c1y c2x c2y x y : ℚ)
  | close
  | winding (w : Winding)
deriving DecidableEq, Repr

/-- Coordinate transformation of one command, as performed in place by
the switch loop of `Context.appendCommand` (nanovgo.go lines 566-587):
MOVETO and LINETO transform their point, BEZIERTO all three points,
CLOSE and WINDING carry no coordinates. -/
def transformCommand (t : TransformMatrix) : NvgCommand → NvgCommand
  | .moveTo x y =>
      let p := t.TransformPoint x y
      .moveTo p.1 p.2
  | .lineTo x y =>
      let p := t.TransformPoint x y
      .lineTo p.1 p.2
  | .bezierTo c1x c1y c2x c2y x y =>
      let p1 := t.TransformPoint c1x c1y
      let p2 := t.TransformPoint c2x c2y
      let p3 := t.TransformPoint x y
      .bezierTo p1.1 p1.2 p2.1 p2.2 p3.1 p3.2
  | .close => .close
  | .winding w => .winding w

/-- Flattened point.  Carries position and the join-geometry flag set;
the outgoing direction and length written by `normalize` in the flatten
pass feed only the (unembedded) expanders, involve a square root that is
not exact over `ℚ`, and are not read by any embedded operation, so they
are omitted. -/
structure NvgPoint where
  x : ℚ
  y : ℚ
  flags : ℕ
deriving DecidableEq, Repr

/-- Modelled from the spec: the CORNER point flag bit (flag constants are
in the missing path file). -/
def ptCorner : ℕ := 1

/-- Sub-path record (`nvgPath`): an index range into the shared point
buffer, the closed flag and the declared winding.  The expansion outputs
(`fills`, `strokes`, `convex`, `nbevel`) are not part of the embedded
flatten pass and are omitted. -/
structure NvgPath where
  first : ℕ
  count : ℕ
  closed : Bool
  winding : Winding
deriving DecidableEq, Repr

/-- Accumulated bounding box `[xmin, ymin, xmax, ymax]`
(`cache.bounds [4]float32`, here four named fields). -/
structure NvgBounds where
  xmin : ℚ
  ymin : ℚ
  xmax : ℚ
  ymax : ℚ
deriving DecidableEq, Repr

/-- Per-frame derived geometry (`nvgPathCache`): the shared point buffer,
the sub-path list and the bounding box.  The shared vertex buffer filled
by the expanders is outside the embedded flatten pass. -/
structure NvgPathCache where
  points : List NvgPoint
  paths : List NvgPath
  bounds : NvgBounds
deriving DecidableEq, Repr

/-- Replace the last element of a list (the Go code mutates the last
slice element through a pointer). -/
def updateLast (f : α → α) : List α → List α
  | [] => []
  | [a] => [f a]
  | a :: b :: rest => a :: updateLast f (b :: rest)

/-- Modelled from the spec: point-coincidence test `ptEquals` (util file
missing): squared distance strictly below squared tolerance. -/
def ptEquals (x1 y1 x2 y2 tol : ℚ) : Bool :=
  decide ((x2 - x1) * (x2 - x1) + (y2 - y1) * (y2 - y1) < tol * tol)

/-- Modelled from the spec: `addPath` (path file missing): start a new
sub-path whose point range begins at the current end of the point
buffer, initially empty, not closed, with the default Solid winding. -/
def NvgPathCache.addPath (c : NvgPathCache) : NvgPathCache :=
  { c with paths :=
      c.paths ++ [{ first := c.points.length, count := 0, closed := false,
                    winding := Winding.solid }] }

/-- Modelled from the spec: `lastPoint`: the most recently appended point
of the shared buffer. -/
def NvgPathCache.lastPoint (c : NvgPathCache) : Option NvgPoint :=
  c.points.getLast?

/-- Modelled from the spec: `addPoint` (path file missing): append a
point to the current (last) sub-path, deduplicating a point closer than
the distance tolerance to the previous one — the retained point absorbs
the new flags; without a current sub-path the call has no effect. -/
def NvgPathCache.addPoint (c : NvgPathCache) (x y : ℚ) (fl : ℕ) (distTol : ℚ) : NvgPathCache :=
  match c.paths.getLast? with
  | none => c
  | some path =>
    match c.points.getLast? with
    | some lp =>
      if 0 < path.count ∧ ptEquals lp.x lp.y x y distTol then
        { c with points := updateLast (fun q => { q with flags := Nat.lor q.flags fl }) c.points }
      else
        { c with points := c.points ++ [⟨x, y, fl⟩],
                 paths := updateLast (fun q => { q with count := q.count + 1 }) c.paths }
    | none =>
        { c with points := c.points ++ [⟨x, y, fl⟩],
                 paths := updateLast (fun q => { q with count := q.count + 1 }) c.paths }

/-- Modelled from the spec: `closePath`: mark the current sub-path
closed. -/
def NvgPathCache.closePath (c : NvgPathCache) : NvgPathCache :=
  { c with paths := updateLast (fun p => { p with closed := true }) c.paths }

/-- Modelled from the spec: `pathWinding`: set the current sub-path's
winding. -/
def NvgPathCache.pathWinding (c : NvgPathCache) (w : Winding) : NvgPathCache :=
  { c with paths := updateLast (fun p => { p with winding := w }) c.paths }

/-- Modelled from the spec: adaptive bezier flattening (path file
missing): test the flatness of the control polygon (perpendicular
deviation of the control points from the chord against the tessellation
tolerance); if flat enough, or the subdivision depth is exhausted, emit
the endpoint; otherwise split at the midpoint (de Casteljau) and recurse
on both halves.  `depthLeft` counts the remaining subdivision levels
(the source counts a level up to a cap of 10, which corresponds to
starting from `depthLeft = 11`). -/
def NvgPathCache.tesselateBezier (c : NvgPathCache)
    (x1 y1 x2 y2 x3 y3 x4 y4 : ℚ) (depthLeft : ℕ) (t : ℕ)
    (tessTol distTol : ℚ) : NvgPathCache :=
  match depthLeft with
  | 0 => c.addPoint x4 y4 t distTol
  | d + 1 =>
    let dx := x4 - x1
    let dy := y4 - y1
    let d2 := absF ((x2 - x4) * dy - (y2 - y4) * dx)
    let d3 := absF ((x3 - x4) * dy - (y3 - y4) * dx)
    if (d2 + d3) * (d2 + d3) < tessTol * (dx * dx + dy * dy) then
      c.addPoint x4 y4 t distTol
    else
      let x12 := (x1 + x2) / 2
      let y12 := (y1 + y2) / 2
      let x23 := (x2 + x3) / 2
      let y23 := (y2 + y3) / 2
      let x34 := (x3 + x4) / 2
      let y34 := (y3 + y4) / 2
      let x123 := (x12 + x23) / 2
      let y123 := (y12 + y23) / 2
      let x234 := (x23 + x34) / 2
      let y234 := (y23 + y34) / 2
      let x1234 := (x123 + x234) / 2
      let y1234 := (y123 + y234) / 2
      let c2 := c.tesselateBezier x1 y1 x12 y12 x123 y123 x1234 y1234 d 0 tessTol distTol
      c2.tesselateBezier x1234 y1234 x234 y234 x34 y34 x4 y4 d t tessTol distTol

/-- Number of subdivision levels available to `tesselateBezier` when
entered from the flatten pass (source: recursion is cut at level 10). -/
def bezierDepth : ℕ := 11

/-- One step of the command walk of `Context.flattenPaths`
(nanovgo.go lines 597-626): MOVETO starts a sub-path and appends its
first point, LINETO appends a point, BEZIERTO flattens from the last
point, CLOSE marks the sub-path closed, WINDING sets its winding. -/
def flattenStep (tessTol distTol : ℚ) (c : NvgPathCache) : NvgCommand → NvgPathCache
  | .moveTo x y => (c.addPath).addPoint x y ptCorner distTol
  | .lineTo x y => c.addPoint x y ptCorner distTol
  | .bezierTo c1x c1y c2x c2y x y =>
    match c.lastPoint with
    | some lp => c.tesselateBezier lp.x lp.y c1x c1y c2x c2y x y bezierDepth ptCorner tessTol distTol
    | none => c
  | .close => c.closePath
  | .winding w => c.pathWinding w

/-- Cross product `p × q` of two buffer points viewed as vectors. -/
def crossP (p q : NvgPoint) : ℚ := p.x * q.y - q.x * p.y

/-- Sum of cross products of consecutive points (open polyline part of
the shoelace sum). -/
def pathCross : List NvgPoint → ℚ
  | p :: q :: rest => crossP p q + pathCross (q :: rest)
  | _ => 0

/-- Cyclic shoelace sum of a point list: consecutive cross products plus
the wrap-around term from the last point back to the first. -/
def shoelace (l : List NvgPoint) : ℚ :=
  match l.head?, l.getLast? with
  | some h, some z => pathCross l + crossP z h
  | _, _ => 0

/-- Modelled from the spec: `polyArea` (path file missing): the signed
polygon area of the point sequence — half the cyclic shoelace sum;
positive for counter-clockwise order. -/
def polyArea (l : List NvgPoint) : ℚ := shoelace l / 2

/-- Modelled from the spec: `polyReverse`: reverse the point order of the
buffer range `[first, first+count)` in place. -/
def polyReverse (pts : List NvgPoint) (first count : ℕ) : List NvgPoint :=
  pts.take first ++ ((pts.drop first).take count).reverse ++ pts.drop (first + count)

/-- The point range of a sub-path inside the shared buffer. -/
def pathPoints (pts : List NvgPoint) (p : NvgPath) : List NvgPoint :=
  (pts.drop p.first).take p.count

/-- Closing-point strip of the flatten pass (nanovgo.go lines 634-641):
when the sub-path's last point coincides with its first within the
distance tolerance and the sub-path has more than two points, drop the
duplicate (the stored count shrinks by one) and mark the sub-path
closed. -/
def stripPath (distTol : ℚ) (pts : List NvgPoint) (path : NvgPath) : NvgPath :=
  let seg := pathPoints pts path
  match seg.head?, seg.getLast? with
  | some p1, some p0 =>
    if ptEquals p0.x p0.y p1.x p1.y distTol ∧ 2 < path.count then
      { path with count := path.count - 1, closed := true }
    else path
  | _, _ => path

/-- Winding enforcement of the flatten pass (nanovgo.go lines 643-651):
a sub-path of more than two points whose signed area contradicts its
declared winding has its point order reversed. -/
def enforceWinding (pts : List NvgPoint) (path : NvgPath) : List NvgPoint :=
  if 2 < path.count then
    let area := polyArea (pathPoints pts path)
    if (path.winding = Winding.solid ∧ area < 0) ∨
       (path.winding = Winding.hole ∧ 0 < area) then
      polyReverse pts path.first path.count
    else pts
  else pts

/-- Fold a run of points into the bounding box, one `minF`/`maxF` update
per point (nanovgo.go lines 655-661). -/
def foldPointBounds (b : NvgBounds) (l : List NvgPoint) : NvgBounds :=
  l.foldl
    (fun b p => ⟨minF b.xmin p.x, minF b.ymin p.y, maxF b.xmax p.x, maxF b.ymax p.y⟩) b

/-- Bounds contribution of one sub-path: the source's segment loop folds
the sub-path's last point first and then the points from the start
(`p0` starts at `points[count-1]` and then walks `points[0…count-2]`). -/
def boundsOfPath (pts : List NvgPoint) (b : NvgBounds) (path : NvgPath) : NvgBounds :=
  let seg := pathPoints pts path
  foldPointBounds b (seg.drop (path.count - 1) ++ seg.take (path.count - 1))

/-- Post-walk processing of one sub-path (nanovgo.go lines 631-668):
strip the duplicate closing point, enforce the winding by conditional
reversal, and fold the sub-path's points into the bounds.  The
direction/length computation of the same loop feeds only the expanders
and is omitted (see `NvgPoint`). -/
def flattenPostPath (distTol : ℚ) (pts : List NvgPoint) (b : NvgBounds)
    (path : NvgPath) : List NvgPoint × NvgBounds × NvgPath :=
  let path1 := stripPath distTol pts path
  let pts1 := enforceWinding pts path1
  let b1 := boundsOfPath pts1 b path1
  (pts1, b1, path1)

/-- Post-walk processing of the whole sub-path list, in order. -/
def flattenPostList (distTol : ℚ) (pts : List NvgPoint) (b : NvgBounds) :
    List NvgPath → List NvgPoint × NvgBounds × List NvgPath
  | [] => (pts, b, [])
  | p :: rest =>
    let r1 := flattenPostPath distTol pts b p
    let r2 := flattenPostList distTol r1.1 r1.2.1 rest
    (r2.1, r2.2.1, r1.2.2 :: r2.2.2)

/-- The inverted bounding box the flatten pass starts from
(`{1e6, 1e6, -1e6, -1e6}`), so the first point establishes the box. -/
def resetBounds : NvgBounds := ⟨1000000, 1000000, -1000000, -1000000⟩

/-- `Context.flattenPaths` (nanovgo.go lines 591-670) as a function of
the command stream and the cache: memoized — a cache already holding
sub-paths is returned unchanged; otherwise walk the command stream and
post-process every sub-path. -/
def flattenPaths (tessTol distTol : ℚ) (commands : List NvgCommand)
    (cache : NvgPathCache) : NvgPathCache :=
  if 0 < cache.paths.length then cache
  else
    let c1 := commands.foldl (flattenStep tessTol distTol) cache
    let r := flattenPostList distTol c1.points resetBounds c1.paths
    { points := r.1, paths := r.2.2, bounds := r.2.1 }

/-- A flatten pass run from a cleared cache (the state `BeginPath`
leaves: no points, no sub-paths; `b` is whatever stale bounds the cache
carried, which the pass resets). -/
def flattenFrom (tessTol distTol : ℚ) (cmds : List NvgCommand) (b : NvgBounds) : NvgPathCache :=
  flattenPaths tessTol distTol cmds { points := [], paths := [], bounds := b }

/-- The panic guard of `Context.Stroke` (nanovgo.go lines 369-373): after
flattening, a sub-path holding exactly one point fails loudly before
stroke expansion. -/
def strokeGuardFiresOn (cache : NvgPathCache) : Bool :=
  cache.paths.any fun p => p.count == 1

/-- Device-space stroke width computed by `Context.Stroke`
(nanovgo.go lines 357-366): the logical stroke width times the
transform's average scale, clamped into `[0, 200]`, then raised to the
fringe width when smaller.  The average scale (a square root of the
basis-vector lengths, not exact over `ℚ`) enters as a parameter. -/
def strokeDeviceWidth (strokeWidth scale fringeWidth : ℚ) : ℚ :=
  let sw := clampF (strokeWidth * scale) 0 200
  if sw < fringeWidth then fringeWidth else sw

/-- Maximum render-state stack depth.  Modelled from the spec: requests
exceeding the fixed stack capacity are silently ignored (the constant is
in a file missing from the snapshot; the upstream library uses 32). -/
def nvgMaxStates : ℕ := 32

/-- Drawing context (`Context`): command stream, render-state stack,
path cache and per-frame geometry tolerances.  The backend handle, font
fields and triangle counters play no part in the embedded geometry
pipeline and are omitted; the `commandX`/`commandY` scratch registers
are written by `appendCommand` but never read anywhere in `nanovgo.go`
and are omitted as well. -/
structure NvgContext where
  commands : List NvgCommand
  states : List nvgState
  cache : NvgPathCache
  tessTol : ℚ
  distTol : ℚ
  fringeWidth : ℚ
deriving DecidableEq, Repr

/-- `Context.getState`: the top of the state stack.  The Go source
indexes `states[len-1]` and would fault on an empty stack (unreachable
after `BeginFrame`); the model returns the zero state there. -/
def NvgContext.getState (c : NvgContext) : nvgState :=
  c.states.getLastD nvgStateZero

/-- Mutation of the top state through the `getState` pointer: rewrite the
last stack entry (no effect on the empty stack, where the source would
fault). -/
def NvgContext.updateState (c : NvgContext) (f : nvgState → nvgState) : NvgContext :=
  { c with states := updateLast f c.states }

/-- `Context.Save` (nanovgo.go lines 99-108): push a copy of the top
state, or the zero state onto an empty stack; silently ignored at the
capacity limit. -/
def NvgContext.Save (c : NvgContext) : NvgContext :=
  if nvgMaxStates ≤ c.states.length then c
  else
    match c.states.getLast? with
    | some s => { c with states := c.states ++ [s] }
    | none => { c with states := c.states ++ [nvgStateZero] }

/-- `Context.Restore` (nanovgo.go lines 111-116): pop the top state
unless only one entry remains. -/
def NvgContext.Restore (c : NvgContext) : NvgContext :=
  if 1 < c.states.length then { c with states := c.states.dropLast } else c

/-- `Context.appendCommand` (nanovgo.go lines 558-589): transform the
coordinates of every appended command by the current top-of-stack
transform and append them to the command stream. -/
def NvgContext.appendCommand (c : NvgContext) (vals : List NvgCommand) : NvgContext :=
  { c with commands := c.commands ++ vals.map (transformCommand c.getState.xform) }

/-- `Context.BeginPath` (nanovgo.go lines 247-250): clear the command
stream and the path cache (points and sub-paths; the stale bounds stay
until the next flatten pass resets them). -/
def NvgContext.BeginPath (c : NvgContext) : NvgContext :=
  { c with commands := [],
           cache := { points := [], paths := [], bounds := c.cache.bounds } }

/-- `Context.Rect` (nanovgo.go lines 253-261): move to the corner, three
lines around the rectangle, close. -/
def NvgContext.Rect (c : NvgContext) (x y w h : ℚ) : NvgContext :=
  c.appendCommand
    [NvgCommand.moveTo x y,
     NvgCommand.lineTo x (y + h),
     NvgCommand.lineTo (x + w) (y + h),
     NvgCommand.lineTo (x + w) y,
     NvgCommand.close]

/-- Modelled from the spec: `MoveTo` appends a tagged, pre-transformed
MOVETO (the primitive emitters are in a file missing from the snapshot;
the sample program in the repository calls them). -/
def NvgContext.MoveTo (c : NvgContext) (x y : ℚ) : NvgContext :=
  c.appendCommand [NvgCommand.moveTo x y]

/-- Modelled from the spec: `LineTo` appends a tagged, pre-transformed
LINETO. -/
def NvgContext.LineTo (c : NvgContext) (x y : ℚ) : NvgContext :=
  c.appendCommand [NvgCommand.lineTo x y]

/-- Modelled from the spec: `BezierTo` appends a tagged, pre-transformed
BEZIERTO. -/
def NvgContext.BezierTo (c : NvgContext) (c1x c1y c2x c2y x y : ℚ) : NvgContext :=
  c.appendCommand [NvgCommand.bezierTo c1x c1y c2x c2y x y]

/-- `Context.ClosePath` (nanovgo.go lines 303-305). -/
def NvgContext.ClosePath (c : NvgContext) : NvgContext :=
  c.appendCommand [NvgCommand.close]

/-- `Context.PathWinding` (nanovgo.go lines 308-310). -/
def NvgContext.PathWinding (c : NvgContext) (w : Winding) : NvgContext :=
  c.appendCommand [NvgCommand.winding w]

/-- `Context.Translate` (nanovgo.go lines 146-149). -/
def NvgContext.Translate (c : NvgContext) (x y : ℚ) : NvgContext :=
  c.updateState fun s => { s with xform := s.xform.PreMultiply (TranslateMatrix x y) }

/-- `Context.SetTransformByValue` (nanovgo.go lines 133-137). -/
def NvgContext.SetTransformByValue (c : NvgContext) (a b cc d e f : ℚ) : NvgContext :=
  c.updateState fun s => { s with xform := s.xform.PreMultiply ⟨a, b, cc, d, e, f⟩ }

/-- `Context.ResetTransform` (nanovgo.go lines 140-143). -/
def NvgContext.ResetTransform (c : NvgContext) : NvgContext :=
  c.updateState fun s => { s with xform := IdentityMatrix }

/-- `Context.SetStrokeWidth` (nanovgo.go line 126). -/
def NvgContext.SetStrokeWidth (c : NvgContext) (width : ℚ) : NvgContext :=
  c.updateState fun s => { s with strokeWidth := width }

/-- `Context.Scissor` lifted to the context (mutates the top state). -/
def NvgContext.Scissor (c : NvgContext) (x y w h : ℚ) : NvgContext :=
  c.updateState fun s => s.scissorSet x y w h

/-- `Context.IntersectScissor` lifted to the context. -/
def NvgContext.IntersectScissor (c : NvgContext) (x y w h : ℚ) : NvgContext :=
  c.updateState fun s => s.intersectScissorSet x y w h

/-- `Context.ResetScissor` (nanovgo.go lines 239-244). -/
def NvgContext.ResetScissor (c : NvgContext) : NvgContext :=
  c.updateState fun s =>
    { s with scissor := { xform := ⟨0, 0, 0, 0, 0, 0⟩, extent1 := -1, extent2 := -1 } }

/-- Path-geometry phase of `Context.Fill` (nanovgo.go lines 334-345):
flatten the command stream into the cache.  Fill expansion and backend
submission do not alter the flatten observables verified here (sub-path
ranges, coordinates, closed flags, windings, bounds). -/
def NvgContext.fill (c : NvgContext) : NvgContext :=
  { c with cache := flattenPaths c.tessTol c.distTol c.commands c.cache }

/-- The flatten-plus-guard head of `Context.Stroke` (nanovgo.go lines
368-373): flatten, then panic when some sub-path holds exactly one
point.  The panic is represented as this Bool. -/
def NvgContext.strokeGuardFires (c : NvgContext) : Bool :=
  strokeGuardFiresOn (flattenPaths c.tessTol c.distTol c.commands c.cache)

/-- A fresh context the way `BeginFrame` at device pixel ratio 1 leaves
it: one reset state, empty command stream, empty cache, and the
tolerances of `setDevicePixelRatio(1)` (nanovgo.go lines 547-552):
tessellation tolerance 1/4, distance tolerance 1/100, fringe width 1. -/
def mkContext : NvgContext :=
  { commands := [],
    states := [nvgStateReset],
    cache := { points := [], paths := [], bounds := ⟨0, 0, 0, 0⟩ },
    tessTol := 1/4,
    distTol := 1/100,
    fringeWidth := 1 }

/-- The command stream recorded by `Rect(0,0,100,50)` under the identity
transform, used as the concrete input of several witnesses. -/
def rectCmds : List NvgCommand :=
  [NvgCommand.moveTo 0 0, NvgCommand.lineTo 0 50, NvgCommand.lineTo 100 50,
   NvgCommand.lineTo 100 0, NvgCommand.close]

/-- Transform-changing operations of the public API (the ones named by
the spec's baked-in-transform property). -/
inductive XformOp where
  | translate (x y : ℚ)
  | setTransformByValue (a b cc d e f : ℚ)
  | resetTransform
deriving DecidableEq, Repr

/-- Apply one transform-changing operation to the context. -/
def applyXformOp (c : NvgContext) : XformOp → NvgContext
  | .translate x y => c.Translate x y
  | .setTransformByValue a b cc d e f => c.SetTransformByValue a b cc d e f
  | .resetTransform => c.ResetTransform

/-- Apply a sequence of transform-changing operations. -/
def applyXformOps (c : NvgContext) (ops : List XformOp) : NvgContext :=
  ops.foldl applyXformOp c

/-- State-stack operations of the public API. -/
inductive StackOp where
  | save
  | restore
deriving DecidableEq, Repr

/-- Apply one state-stack operation to the context. -/
def applyStackOp (c : NvgContext) : StackOp → NvgContext
  | .save => c.Save
  | .restore => c.Restore

/-- Apply a sequence of state-stack operations. -/
def applyStackOps (c : NvgContext) (ops : List StackOp) : NvgContext :=
  ops.foldl applyStackOp c

/-- The sub-path ranges tile the point buffer exactly: starting at
offset `s`, each sub-path begins where the previous one ended and the
last one ends at `n` (the walk phase maintains this with `n` the buffer
length; the post phase relaxes it by shrinking counts). -/
def rangesFrom : ℕ → List NvgPath → ℕ → Prop
  | s, [], n => s = n
  | s, p :: rest, n => p.first = s ∧ rangesFrom (p.first + p.count) rest n

/-- Every sub-path holds at least one point. -/
def CountsOK (l : List NvgPath) : Prop := ∀ p ∈ l, 1 ≤ p.count

/-- Invariant maintained by the command walk of the flatten pass. -/
def WalkInv (c : NvgPathCache) : Prop :=
  rangesFrom 0 c.paths c.points.length ∧ CountsOK c.paths

/-- Number of MOVETO commands in a stream (each starts one sub-path). -/
def countMoveTo : List NvgCommand → ℕ
  | [] => 0
  | .moveTo _ _ :: rest => countMoveTo rest + 1
  | _ :: rest => countMoveTo rest

/-- A point lies inside a bounding box. -/
def withinB (b : NvgBounds) (q : NvgPoint) : Prop :=
  b.xmin ≤ q.x ∧ q.x ≤ b.xmax ∧ b.ymin ≤ q.y ∧ q.y ≤ b.ymax

/-- The second box is at least as wide as the first. -/
def boundsLE (b bb : NvgBounds) : Prop :=
  bb.xmin ≤ b.xmin ∧ bb.ymin ≤ b.ymin ∧ b.xmax ≤ bb.xmax ∧ b.ymax ≤ bb.ymax

/-- The signed area of a sub-path's point run agrees with its declared
winding: nonnegative for Solid, nonpositive for Hole. -/
def windingOK (seg : List NvgPoint) (w : Winding) : Prop :=
  (w = Winding.solid → 0 ≤ polyArea seg) ∧ (w = Winding.hole → polyArea seg ≤ 0)

theorem commands_updateState (c : NvgContext) (f : nvgState → nvgState) :
    (c.updateState f).commands = c.commands := rfl

theorem commands_applyXformOps (ops : List XformOp) :
    ∀ c : NvgContext, (applyXformOps c ops).commands = c.commands := by
  induction ops with
  | nil => intro c; rfl
  | cons op rest ih =>
    intro c
    show (applyXformOps (applyXformOp c op) rest).commands = c.commands
    rw [ih]
    cases op <;> rfl

theorem states_length_applyStackOp (c : NvgContext) (op : StackOp)
    (h : 1 ≤ c.states.length) : 1 ≤ (applyStackOp c op).states.length := by
  cases op with
  | save =>
    show 1 ≤ c.Save.states.length
    unfold NvgContext.Save
    split
    · exact h
    · cases hl : c.states.getLast? <;> simp
  | restore =>
    show 1 ≤ c.Restore.states.length
    unfold NvgContext.Restore
    split
    · next hlen => simp [List.length_dropLast]; omega
    · exact h

theorem states_length_applyStackOps (ops : List StackOp) :
    ∀ c : NvgContext, 1 ≤ c.states.length →
      1 ≤ (applyStackOps c ops).states.length := by
  induction ops with
  | nil => intro c h; exact h
  | cons op rest ih =>
    intro c h
    exact ih (applyStackOp c op) (states_length_applyStackOp c op h)

/-- C7: `appendCommand` bakes the top-of-stack transform into every
appended MOVETO/LINETO/BEZIERTO coordinate at the moment of appending
(`transformCommand`), and no subsequent sequence of `Translate`,
`SetTransformByValue` or `ResetTransform` calls changes any
already-recorded command. -/
theorem appendCommand_bakes_transform (c : NvgContext) (vals : List NvgCommand)
    (ops : List XformOp) :
    (applyXformOps (c.appendCommand vals) ops).commands =
      c.commands ++ vals.map (transformCommand c.getState.xform) := by
  rw [commands_applyXformOps]
  rfl

/-- C9: with exactly one entry on the state stack, `Restore` is a silent
no-op (the whole context, hence the remaining state, is unchanged),
`getState` still reads that state without faulting, and no sequence of
`Save`/`Restore` calls ever brings the stack below one entry. -/
theorem restore_floor_noop (c : NvgContext) (ops : List StackOp) (s : nvgState)
    (hs : c.states = [s]) :
    c.Restore = c ∧ c.getState = s ∧
      1 ≤ (applyStackOps c ops).states.length := by
  refine ⟨?_, ?_, ?_⟩
  · unfold NvgContext.Restore
    rw [if_neg]
    rw [hs]
    simp
  · unfold NvgContext.getState
    rw [hs]
    rfl
  · exact states_length_applyStackOps ops c (by rw [hs]; simp)

/-- Witness for C9 at a fresh context and the sequence
restore-restore-save. -/
theorem restore_floor_noop_witness :
    mkContext.states = [nvgStateReset] ∧
      (mkContext.Restore = mkContext ∧ mkContext.getState = nvgStateReset ∧
        1 ≤ (applyStackOps mkContext [StackOp.restore, StackOp.restore, StackOp.save]).states.length) :=
  ⟨rfl, restore_floor_noop mkContext [StackOp.restore, StackOp.restore, StackOp.save]
     nvgStateReset rfl⟩

/-- C10: for every logical stroke width, every average-scale value and
every fringe width at most 200, the device-space stroke width computed
by `Stroke` lies in `[fringeWidth, 200]` — the product is clamped to
`[0, 200]` and raised to the fringe width when smaller. -/
theorem stroke_width_device_range (w scale fw : ℚ) (h : fw ≤ 200) :
    fw ≤ strokeDeviceWidth w scale fw ∧ strokeDeviceWidth w scale fw ≤ 200 := by
  simp only [strokeDeviceWidth, clampF]
  split_ifs <;> constructor <;> linarith

/-- Witness for C10 at stroke width 3, scale 2, fringe width 1. -/
theorem stroke_width_device_range_witness :
    (1 : ℚ) ≤ 200 ∧
      (1 ≤ strokeDeviceWidth 3 2 1 ∧ strokeDeviceWidth 3 2 1 ≤ 200) :=
  ⟨by norm_num, stroke_width_device_range 3 2 1 (by norm_num)⟩

/-- C1: evaluated at the spec's own scenario — identity transform,
`Scissor(0,0,100,100)` then `IntersectScissor(50,50,100,100)` — the code
produces the degenerate scissor rectangle `(50,50,0,0)` (half-extents
`(0,0)`, centre translation `(50,50)`), not the overlap rectangle
`(50,50,50,50)` (half-extents `(25,25)`, centre `(75,75)`) that the
claim and the method's own documentation describe: the tent-extent
computation multiplies its four factors (`ex*|p0| * ey*|p2|`) where the
intersection formula requires sums of products (`ex*|p0| + ey*|p2|`). -/
theorem scissor_bug_eval :
    ((nvgStateReset.scissorSet 0 0 100 100).intersectScissorSet 50 50 100 100).scissor
      = { xform := ⟨1, 0, 0, 1, 50, 50⟩, extent1 := 0, extent2 := 0 } := by
  norm_num [nvgStateReset, nvgState.scissorSet, nvgState.intersectScissorSet,
    TransformMatrix.Multiply, TransformMatrix.Inverse, TranslateMatrix,
    IdentityMatrix, intersectRects, minF, maxF, absF]

theorem intersect_scissor_degenerate_bug :
    ((nvgStateReset.scissorSet 0 0 100 100).intersectScissorSet 50 50 100 100).scissor
        = { xform := ⟨1, 0, 0, 1, 50, 50⟩, extent1 := 0, extent2 := 0 } ∧
    ¬ ((nvgStateReset.scissorSet 0 0 100 100).intersectScissorSet 50 50 100 100).scissor
        = { xform := ⟨1, 0, 0, 1, 75, 75⟩, extent1 := 25, extent2 := 25 } := by
  refine ⟨scissor_bug_eval, ?_⟩
  rw [scissor_bug_eval]
  norm_num [nvgScissor.mk.injEq, TransformMatrix.mk.injEq]

/-- C2 counterexample: after `BeginPath(); Rect(0,0,100,50)` and the
flatten phase of `Fill()` under the identity transform, the point
buffer holds exactly 4 points and the single sub-path counts 4 of them —
the sub-path never holds 5 points: `Rect` emits only the four corners
and CLOSE marks the sub-path closed without appending a synthetic
closing point (a strip would have left 5 buffer points with count 4). -/
theorem rect_fill_cache_eval :
    ((((mkContext.BeginPath).Rect 0 0 100 50).fill).cache) =
      { points := [⟨100, 0, 1⟩, ⟨100, 50, 1⟩, ⟨0, 50, 1⟩, ⟨0, 0, 1⟩],
        paths := [{ first := 0, count := 4, closed := true, winding := Winding.solid }],
        bounds := ⟨0, 0, 100, 50⟩ } := by
  norm_num [mkContext, NvgContext.BeginPath, NvgContext.Rect, NvgContext.fill,
    NvgContext.appendCommand, NvgContext.getState, nvgStateReset, IdentityMatrix,
    transformCommand, TransformMatrix.TransformPoint, flattenPaths, flattenStep,
    NvgPathCache.addPath, NvgPathCache.addPoint, NvgPathCache.closePath,
    NvgPathCache.lastPoint, updateLast, ptEquals, ptCorner, flattenPostList,
    flattenPostPath, stripPath, enforceWinding, polyReverse, pathPoints, polyArea,
    shoelace, pathCross, crossP, boundsOfPath, foldPointBounds, resetBounds,
    minF, maxF, List.getLastD, List.getLast?_cons_cons, List.foldl]

theorem rect_fill_four_points_not_five :
    ((((mkContext.BeginPath).Rect 0 0 100 50).fill).cache).points.length = 4 ∧
    ((((mkContext.BeginPath).Rect 0 0 100 50).fill).cache).paths.length = 1 ∧
    ∀ p ∈ ((((mkContext.BeginPath).Rect 0 0 100 50).fill).cache).paths,
      p.count = 4 ∧ p.closed = true := by
  rw [rect_fill_cache_eval]
  refine ⟨rfl, rfl, ?_⟩
  intro p hp
  simp only [List.mem_singleton] at hp
  subst hp
  exact ⟨rfl, rfl⟩

/-- C2 as amended: the same scenario yields exactly one sub-path, closed,
holding exactly 4 points — the rectangle corners, reversed by winding
enforcement since `Rect` winds clockwise and the default winding is
Solid — no synthetic closing point is ever appended or stripped, and the
cache bounds are exactly `(0, 0, 100, 50)`. -/
theorem rect_fill_flatten_result :
    ((((mkContext.BeginPath).Rect 0 0 100 50).fill).cache).paths
        = [{ first := 0, count := 4, closed := true, winding := Winding.solid }] ∧
    ((((mkContext.BeginPath).Rect 0 0 100 50).fill).cache).points
        = [⟨100, 0, 1⟩, ⟨100, 50, 1⟩, ⟨0, 50, 1⟩, ⟨0, 0, 1⟩] ∧
    ((((mkContext.BeginPath).Rect 0 0 100 50).fill).cache).bounds = ⟨0, 0, 100, 50⟩ := by
  rw [rect_fill_cache_eval]
  exact ⟨rfl, rfl, rfl⟩

/-- C6 counterexample: the single public call `MoveTo(0,0)` (after
`BeginPath`) flattens to a sub-path of one point whose last point
coincides with its first (distance 0, within the distance tolerance
1/100), yet the flatten pass neither removes a point nor marks the
sub-path closed — the strip requires more than two points. -/
theorem single_point_flatten_eval :
    flattenFrom (1/4) (1/100) [NvgCommand.moveTo 0 0] ⟨0, 0, 0, 0⟩ =
      { points := [⟨0, 0, 1⟩],
        paths := [{ first := 0, count := 1, closed := false, winding := Winding.solid }],
        bounds := ⟨0, 0, 0, 0⟩ } := by
  norm_num [flattenFrom, flattenPaths, flattenStep, NvgPathCache.addPath,
    NvgPathCache.addPoint, NvgPathCache.lastPoint, updateLast, ptEquals, ptCorner,
    flattenPostList, flattenPostPath, stripPath, enforceWinding, polyReverse,
    pathPoints, polyArea, shoelace, pathCross, crossP, boundsOfPath,
    foldPointBounds, resetBounds, minF, maxF, List.getLastD, List.foldl]

theorem strip_single_point_counterexample :
    (flattenFrom (1/4) (1/100) [NvgCommand.moveTo 0 0] ⟨0, 0, 0, 0⟩).points
        = [⟨0, 0, 1⟩] ∧
    (flattenFrom (1/4) (1/100) [NvgCommand.moveTo 0 0] ⟨0, 0, 0, 0⟩).paths
        = [{ first := 0, count := 1, closed := false, winding := Winding.solid }] ∧
    ptEquals 0 0 0 0 (1/100) = true := by
  rw [single_point_flatten_eval]
  refine ⟨rfl, rfl, ?_⟩
  norm_num [ptEquals]

theorem take_sub_one_eq_dropLast_take (l : List α) (c : ℕ) (h : c ≤ l.length) :
    l.take (c - 1) = (l.take c).dropLast := by
  rw [List.dropLast_eq_take]
  rw [List.take_take]
  congr 1
  simp [List.length_take]
  omega

/-- C6 as amended: whenever a sub-path has more than two points and its
last point lies within the distance tolerance of its first, the flatten
pass's strip step removes the duplicate closing point (the stored count
decreases by exactly one), marks the sub-path closed, and the sub-path's
new buffer range is exactly the old range without its final duplicate
point. -/
theorem strip_closing_point (distTol : ℚ) (pts : List NvgPoint) (path : NvgPath)
    (hrange : path.first + path.count ≤ pts.length) (hcount : 2 < path.count)
    (p0 p1 : NvgPoint)
    (hlast : (pathPoints pts path).getLast? = some p0)
    (hhead : (pathPoints pts path).head? = some p1)
    (heq : ptEquals p0.x p0.y p1.x p1.y distTol = true) :
    stripPath distTol pts path = { path with count := path.count - 1, closed := true } ∧
    pathPoints pts { path with count := path.count - 1, closed := true } =
      (pathPoints pts path).dropLast := by
  constructor
  · simp only [stripPath]
    rw [hhead, hlast]
    simp [heq, hcount]
  · show (pts.drop path.first).take (path.count - 1) = _
    unfold pathPoints
    apply take_sub_one_eq_dropLast_take
    simp only [List.length_drop]
    omega

/-- Witness for C6 (amended) at a four-point sub-path whose last point
lies within tolerance 1/100 of its first. -/
theorem strip_closing_point_witness :
    ((⟨0, 4, false, Winding.solid⟩ : NvgPath).first +
        (⟨0, 4, false, Winding.solid⟩ : NvgPath).count ≤
      ([⟨0, 0, 1⟩, ⟨10, 0, 1⟩, ⟨0, 10, 1⟩, ⟨0, 1/1000, 1⟩] : List NvgPoint).length) ∧
    (stripPath (1/100) [⟨0, 0, 1⟩, ⟨10, 0, 1⟩, ⟨0, 10, 1⟩, ⟨0, 1/1000, 1⟩]
        ⟨0, 4, false, Winding.solid⟩ = ⟨0, 3, true, Winding.solid⟩ ∧
      pathPoints [⟨0, 0, 1⟩, ⟨10, 0, 1⟩, ⟨0, 10, 1⟩, ⟨0, 1/1000, 1⟩]
          ⟨0, 3, true, Winding.solid⟩ =
        (pathPoints [⟨0, 0, 1⟩, ⟨10, 0, 1⟩, ⟨0, 10, 1⟩, ⟨0, 1/1000, 1⟩]
            ⟨0, 4, false, Winding.solid⟩).dropLast) :=
  ⟨by norm_num,
   strip_closing_point (1/100) _ _ (by norm_num) (by norm_num)
     ⟨0, 1/1000, 1⟩ ⟨0, 0, 1⟩ (by simp [pathPoints]) (by simp [pathPoints])
     (by norm_num [ptEquals])⟩

/-- C8 counterexample: the public sequence `BeginPath(); MoveTo(10,10);
Stroke()` reaches the panic guard — the flatten pass yields a sub-path
holding exactly one point, so the guard in `Stroke` is reachable (it
fires, which is the loud rejection the spec asks for). -/
theorem stroke_guard_reachable :
    ((mkContext.BeginPath).MoveTo 10 10).strokeGuardFires = true := by
  norm_num [mkContext, NvgContext.BeginPath, NvgContext.MoveTo,
    NvgContext.appendCommand, NvgContext.getState, nvgStateReset, IdentityMatrix,
    transformCommand, TransformMatrix.TransformPoint, NvgContext.strokeGuardFires,
    strokeGuardFiresOn, flattenPaths, flattenStep, NvgPathCache.addPath,
    NvgPathCache.addPoint, NvgPathCache.lastPoint, updateLast, ptEquals, ptCorner,
    flattenPostList, flattenPostPath, stripPath, enforceWinding, polyReverse,
    pathPoints, polyArea, shoelace, pathCross, crossP, boundsOfPath,
    foldPointBounds, resetBounds, minF, maxF, List.getLastD, List.foldl, List.any]

theorem length_updateLast (f : α → α) : ∀ l : List α, (updateLast f l).length = l.length
  | [] => rfl
  | [_] => rfl
  | a :: b :: t => by
    simp only [updateLast, List.length_cons]
    rw [length_updateLast f (b :: t)]
    simp

theorem updateLast_concat (f : α → α) : ∀ (l : List α) (a : α), updateLast f (l ++ [a]) = l ++ [f a]
  | [], _ => rfl
  | [_], _ => rfl
  | b :: c :: t, a =>
    calc updateLast f ((b :: c :: t) ++ [a])
        = b :: updateLast f ((c :: t) ++ [a]) := rfl
      _ = b :: ((c :: t) ++ [f a]) := by rw [updateLast_concat f (c :: t) a]
      _ = (b :: c :: t) ++ [f a] := rfl

theorem mem_updateLast (f : α → α) : ∀ (l : List α) (x : α),
    x ∈ updateLast f l → x ∈ l ∨ ∃ q, q ∈ l ∧ x = f q
  | [], x, h => by simp [updateLast] at h
  | [a], x, h => by
    simp only [updateLast, List.mem_singleton] at h
    exact Or.inr ⟨a, by simp, h⟩
  | a :: b :: t, x, h => by
    simp only [updateLast, List.mem_cons] at h
    rcases h with h | h
    · exact Or.inl (by simp [h])
    · rcases mem_updateLast f (b :: t) x (by simpa using h) with h2 | ⟨q, hq, hx⟩
      · exact Or.inl (List.mem_cons_of_mem _ h2)
      · exact Or.inr ⟨q, List.mem_cons_of_mem _ hq, hx⟩

theorem rangesFrom_le : ∀ (s : ℕ) (l : List NvgPath) (n : ℕ), rangesFrom s l n → s ≤ n
  | _, [], _, h => le_of_eq h
  | _, p :: rest, n, h => by
    obtain ⟨h1, h2⟩ := h
    have h3 := rangesFrom_le (p.first + p.count) rest n h2
    omega

theorem rangesFrom_concat : ∀ (s : ℕ) (l : List NvgPath) (p : NvgPath) (n : ℕ),
    rangesFrom s l p.first → p.first + p.count = n → rangesFrom s (l ++ [p]) n
  | _, [], p, n, h1, h2 => by
    obtain rfl : _ = p.first := h1
    exact ⟨rfl, h2⟩
  | _, q :: rest, p, n, h1, h2 => by
    obtain ⟨hq, hrest⟩ := h1
    exact ⟨hq, rangesFrom_concat _ rest p n hrest h2⟩

theorem rangesFrom_updateLast_inc :
    ∀ (s : ℕ) (l : List NvgPath) (n : ℕ), l ≠ [] → rangesFrom s l n →
      rangesFrom s (updateLast (fun q => { q with count := q.count + 1 }) l) (n + 1)
  | _, [], _, h, _ => absurd rfl h
  | s, [p], n, _, h => by
    obtain ⟨h1, h2⟩ := h
    simp only [updateLast]
    refine ⟨h1, ?_⟩
    simp only [rangesFrom] at h2 ⊢
    omega
  | s, p :: q :: rest, n, _, h => by
    obtain ⟨h1, h2⟩ := h
    simp only [updateLast]
    exact ⟨h1, rangesFrom_updateLast_inc (p.first + p.count) (q :: rest) n (by simp) h2⟩

theorem rangesFrom_updateLast_keep (f : NvgPath → NvgPath)
    (hf : ∀ q, (f q).first = q.first ∧ (f q).count = q.count) :
    ∀ (s : ℕ) (l : List NvgPath) (n : ℕ), rangesFrom s l n → rangesFrom s (updateLast f l) n
  | _, [], _, h => h
  | s, [p], n, h => by
    obtain ⟨h1, h2⟩ := h
    simp only [updateLast, rangesFrom, (hf p).1, (hf p).2]
    simp only [rangesFrom] at h2
    exact ⟨h1, h2⟩
  | s, p :: q :: rest, n, h => by
    obtain ⟨h1, h2⟩ := h
    simp only [updateLast]
    exact ⟨h1, rangesFrom_updateLast_keep f hf _ (q :: rest) n h2⟩

theorem countsOK_updateLast {f : NvgPath → NvgPath} {l : List NvgPath}
    (hl : CountsOK l) (hf : ∀ q, 1 ≤ q.count → 1 ≤ (f q).count) :
    CountsOK (updateLast f l) := by
  intro p hp
  rcases mem_updateLast f l p hp with h | ⟨q, hq, rfl⟩
  · exact hl p h
  · exact hf q (hl q hq)

theorem addPoint_of_paths_nil (c : NvgPathCache) (x y : ℚ) (fl : ℕ) (d : ℚ)
    (h : c.paths = []) : c.addPoint x y fl d = c := by
  unfold NvgPathCache.addPoint
  rw [h]
  rfl

theorem paths_length_addPoint (c : NvgPathCache) (x y : ℚ) (fl : ℕ) (d : ℚ) :
    (c.addPoint x y fl d).paths.length = c.paths.length := by
  unfold NvgPathCache.addPoint
  split
  · rfl
  · split
    · split_ifs <;> simp [length_updateLast]
    · simp [length_updateLast]

theorem walkInv_addPoint (c : NvgPathCache) (x y : ℚ) (fl : ℕ) (d : ℚ)
    (h : WalkInv c) : WalkInv (c.addPoint x y fl d) := by
  obtain ⟨hr, hc⟩ := h
  unfold NvgPathCache.addPoint
  split
  · exact ⟨hr, hc⟩
  · next path hp =>
    have hne : c.paths ≠ [] := by
      intro h0
      rw [h0] at hp
      simp at hp
    have hinc : CountsOK (updateLast (fun q => { q with count := q.count + 1 }) c.paths) := by
      refine countsOK_updateLast hc fun q _ => ?_
      have h1 : ({ q with count := q.count + 1 } : NvgPath).count = q.count + 1 := rfl
      omega
    have happend : WalkInv
        { c with points := c.points ++ [⟨x, y, fl⟩],
                 paths := updateLast (fun q => { q with count := q.count + 1 }) c.paths } := by
      refine ⟨?_, hinc⟩
      show rangesFrom 0 _ (c.points ++ [(⟨x, y, fl⟩ : NvgPoint)]).length
      simp only [List.length_append, List.length_singleton]
      exact rangesFrom_updateLast_inc 0 c.paths c.points.length hne hr
    split
    · split_ifs with hcond
      · refine ⟨?_, hc⟩
        show rangesFrom 0 c.paths (updateLast _ c.points).length
        rw [length_updateLast]
        exact hr
      · exact happend
    · exact happend

theorem addPath_addPoint_eq (c : NvgPathCache) (x y : ℚ) (fl : ℕ) (d : ℚ) :
    (c.addPath).addPoint x y fl d =
      { c with points := c.points ++ [⟨x, y, fl⟩],
               paths := c.paths ++ [⟨c.points.length, 1, false, Winding.solid⟩] } := by
  unfold NvgPathCache.addPath NvgPathCache.addPoint
  simp only [List.getLast?_concat]
  cases hq : c.points.getLast? with
  | none => simp [updateLast_concat]
  | some lp => simp [updateLast_concat]

theorem walkInv_moveTo (c : NvgPathCache) (x y : ℚ) (fl : ℕ) (d : ℚ) (h : WalkInv c) :
    WalkInv ((c.addPath).addPoint x y fl d) := by
  rw [addPath_addPoint_eq]
  obtain ⟨hr, hc⟩ := h
  constructor
  · show rangesFrom 0 _ (c.points ++ [(⟨x, y, fl⟩ : NvgPoint)]).length
    simp only [List.length_append, List.length_singleton]
    exact rangesFrom_concat 0 c.paths _ _ hr rfl
  · intro p hp
    rcases List.mem_append.mp hp with h1 | h1
    · exact hc p h1
    · simp only [List.mem_singleton] at h1
      subst h1
      exact Nat.le_refl 1

theorem paths_length_tessBez :
    ∀ (depth : ℕ) (c : NvgPathCache) (x1 y1 x2 y2 x3 y3 x4 y4 : ℚ) (t : ℕ) (tT dT : ℚ),
      (c.tesselateBezier x1 y1 x2 y2 x3 y3 x4 y4 depth t tT dT).paths.length = c.paths.length := by
  intro depth
  induction depth with
  | zero =>
    intro c x1 y1 x2 y2 x3 y3 x4 y4 t tT dT
    simp only [NvgPathCache.tesselateBezier]
    exact paths_length_addPoint c x4 y4 t dT
  | succ dd ih =>
    intro c x1 y1 x2 y2 x3 y3 x4 y4 t tT dT
    simp only [NvgPathCache.tesselateBezier]
    split_ifs
    · exact paths_length_addPoint c x4 y4 t dT
    · rw [ih, ih]

theorem tessBez_of_paths_nil :
    ∀ (depth : ℕ) (c : NvgPathCache) (x1 y1 x2 y2 x3 y3 x4 y4 : ℚ) (t : ℕ) (tT dT : ℚ),
      c.paths = [] → c.tesselateBezier x1 y1 x2 y2 x3 y3 x4 y4 depth t tT dT = c := by
  intro depth
  induction depth with
  | zero =>
    intro c x1 y1 x2 y2 x3 y3 x4 y4 t tT dT h
    simp only [NvgPathCache.tesselateBezier]
    exact addPoint_of_paths_nil c x4 y4 t dT h
  | succ dd ih =>
    intro c x1 y1 x2 y2 x3 y3 x4 y4 t tT dT h
    simp only [NvgPathCache.tesselateBezier]
    split_ifs
    · exact addPoint_of_paths_nil c x4 y4 t dT h
    · rw [ih c _ _ _ _ _ _ _ _ _ _ _ h]
      exact ih c _ _ _ _ _ _ _ _ _ _ _ h

theorem walkInv_tessBez :
    ∀ (depth : ℕ) (c : NvgPathCache) (x1 y1 x2 y2 x3 y3 x4 y4 : ℚ) (t : ℕ) (tT dT : ℚ),
      WalkInv c → WalkInv (c.tesselateBezier x1 y1 x2 y2 x3 y3 x4 y4 depth t tT dT) := by
  intro depth
  induction depth with
  | zero =>
    intro c x1 y1 x2 y2 x3 y3 x4 y4 t tT dT h
    simp only [NvgPathCache.tesselateBezier]
    exact walkInv_addPoint c x4 y4 t dT h
  | succ dd ih =>
    intro c x1 y1 x2 y2 x3 y3 x4 y4 t tT dT h
    simp only [NvgPathCache.tesselateBezier]
    split_ifs
    · exact walkInv_addPoint c x4 y4 t dT h
    · exact ih _ _ _ _ _ _ _ _ _ _ _ _ (ih _ _ _ _ _ _ _ _ _ _ _ _ h)

theorem walkInv_closePath (c : NvgPathCache) (h : WalkInv c) : WalkInv c.closePath := by
  obtain ⟨hr, hc⟩ := h
  constructor
  · show rangesFrom 0 (updateLast (fun p => { p with closed := true }) c.paths) c.points.length
    exact rangesFrom_updateLast_keep (fun p => { p with closed := true })
      (fun q => ⟨rfl, rfl⟩) 0 c.paths _ hr
  · show CountsOK (updateLast (fun p => { p with closed := true }) c.paths)
    exact countsOK_updateLast hc fun q hq => hq

theorem walkInv_pathWinding (c : NvgPathCache) (w : Winding) (h : WalkInv c) :
    WalkInv (c.pathWinding w) := by
  obtain ⟨hr, hc⟩ := h
  constructor
  · show rangesFrom 0 (updateLast (fun p => { p with winding := w }) c.paths) c.points.length
    exact rangesFrom_updateLast_keep (fun p => { p with winding := w })
      (fun q => ⟨rfl, rfl⟩) 0 c.paths _ hr
  · show CountsOK (updateLast (fun p => { p with winding := w }) c.paths)
    exact countsOK_updateLast hc fun q hq => hq

theorem walkInv_flattenStep (tT dT : ℚ) (c : NvgPathCache) (cmd : NvgCommand)
    (h : WalkInv c) : WalkInv (flattenStep tT dT c cmd) := by
  cases cmd with
  | moveTo x y => exact walkInv_moveTo c x y ptCorner dT h
  | lineTo x y => exact walkInv_addPoint c x y ptCorner dT h
  | bezierTo c1x c1y c2x c2y x y =>
    simp only [flattenStep]
    split
    · exact walkInv_tessBez bezierDepth c _ _ _ _ _ _ _ _ ptCorner tT dT h
    · exact h
  | close => exact walkInv_closePath c h
  | winding w => exact walkInv_pathWinding c w h

theorem closePath_of_paths_nil (c : NvgPathCache) (h : c.paths = []) : c.closePath = c := by
  cases c with
  | mk pts ps b =>
    obtain rfl : ps = [] := h
    rfl

theorem pathWinding_of_paths_nil (c : NvgPathCache) (w : Winding) (h : c.paths = []) :
    c.pathWinding w = c := by
  cases c with
  | mk pts ps b =>
    obtain rfl : ps = [] := h
    rfl

theorem paths_length_flattenStep (tT dT : ℚ) (c : NvgPathCache) (cmd : NvgCommand) :
    (flattenStep tT dT c cmd).paths.length =
      c.paths.length + countMoveTo [cmd] := by
  cases cmd with
  | moveTo x y =>
    show ((c.addPath).addPoint x y ptCorner dT).paths.length = _
    rw [addPath_addPoint_eq]
    simp [countMoveTo]
  | lineTo x y =>
    show (c.addPoint x y ptCorner dT).paths.length = _
    rw [paths_length_addPoint]
    simp [countMoveTo]
  | bezierTo c1x c1y c2x c2y x y =>
    simp only [flattenStep, countMoveTo]
    split
    · rw [paths_length_tessBez]
      omega
    · omega
  | close =>
    show (c.closePath).paths.length = _
    simp [NvgPathCache.closePath, length_updateLast, countMoveTo]
  | winding w =>
    show (c.pathWinding w).paths.length = _
    simp [NvgPathCache.pathWinding, length_updateLast, countMoveTo]

theorem walkInv_walk (tT dT : ℚ) :
    ∀ (cmds : List NvgCommand) (c : NvgPathCache), WalkInv c →
      WalkInv (cmds.foldl (flattenStep tT dT) c) := by
  intro cmds
  induction cmds with
  | nil => intro c h; exact h
  | cons cmd rest ih =>
    intro c h
    rw [List.foldl_cons]
    exact ih _ (walkInv_flattenStep tT dT c cmd h)

theorem paths_length_walk (tT dT : ℚ) :
    ∀ (cmds : List NvgCommand) (c : NvgPathCache),
      (cmds.foldl (flattenStep tT dT) c).paths.length = c.paths.length + countMoveTo cmds := by
  intro cmds
  induction cmds with
  | nil => intro c; simp [countMoveTo]
  | cons cmd rest ih =>
    intro c
    rw [List.foldl_cons, ih]
    rw [paths_length_flattenStep]
    cases cmd <;> simp [countMoveTo] <;> try omega

theorem walk_paths_nil_fixed (tT dT : ℚ) :
    ∀ (cmds : List NvgCommand) (c : NvgPathCache),
      (cmds.foldl (flattenStep tT dT) c).paths = [] →
      cmds.foldl (flattenStep tT dT) c = c := by
  intro cmds
  induction cmds with
  | nil => intro c _; rfl
  | cons cmd rest ih =>
    intro c h
    rw [List.foldl_cons] at h ⊢
    have h1 := ih _ h
    rw [h1] at h ⊢
    have hlen := paths_length_flattenStep tT dT c cmd
    rw [h] at hlen
    simp only [List.length_nil] at hlen
    cases cmd with
    | moveTo x y =>
      exfalso
      simp [countMoveTo] at hlen
    | lineTo x y =>
      have hnil : c.paths = [] := by
        apply List.length_eq_zero.mp
        simp [countMoveTo] at hlen
        omega
      exact addPoint_of_paths_nil c x y ptCorner dT hnil
    | bezierTo c1x c1y c2x c2y x y =>
      have hnil : c.paths = [] := by
        apply List.length_eq_zero.mp
        simp [countMoveTo] at hlen
        omega
      simp only [flattenStep]
      split
      · exact tessBez_of_paths_nil bezierDepth c _ _ _ _ _ _ _ _ ptCorner tT dT hnil
      · rfl
    | close =>
      have hnil : c.paths = [] := by
        apply List.length_eq_zero.mp
        simp [countMoveTo] at hlen
        omega
      exact closePath_of_paths_nil c hnil
    | winding w =>
      have hnil : c.paths = [] := by
        apply List.length_eq_zero.mp
        simp [countMoveTo] at hlen
        omega
      exact pathWinding_of_paths_nil c w hnil

theorem postList_paths_length (dT : ℚ) :
    ∀ (paths : List NvgPath) (pts : List NvgPoint) (b : NvgBounds),
      (flattenPostList dT pts b paths).2.2.length = paths.length
  | [], _, _ => rfl
  | p :: rest, pts, b => by
    simp only [flattenPostList, List.length_cons]
    rw [postList_paths_length dT rest _ _]

theorem flattenPaths_of_no_moveTo (tT dT : ℚ) (cmds : List NvgCommand) (cache : NvgPathCache)
    (h : cache.paths = []) (hcnt : countMoveTo cmds = 0) :
    flattenPaths tT dT cmds cache =
      { points := cache.points, paths := [], bounds := resetBounds } := by
  have hwlen : (cmds.foldl (flattenStep tT dT) cache).paths.length = 0 := by
    rw [paths_length_walk, h, hcnt]
    simp
  have hwnil := List.length_eq_zero.mp hwlen
  have hwc := walk_paths_nil_fixed tT dT cmds cache hwnil
  unfold flattenPaths
  rw [if_neg (by rw [h]; simp)]
  rw [hwc]
  simp only [h]
  rfl

/-- C3: the flatten pass is idempotent — running it a second time on the
result of a first run, with the same command stream, leaves the path
cache (sub-path list, point data, bounds) exactly as the first run left
it: a cache already holding sub-paths is returned unchanged, and a run
that produced no sub-paths changed nothing the rerun would not
recompute identically.  `Fill` and `Stroke` both enter through this
function, so any number of them between two `BeginPath` calls reuses
the memoized flatten result. -/
theorem flatten_idempotent (tT dT : ℚ) (cmds : List NvgCommand) (cache : NvgPathCache) :
    flattenPaths tT dT cmds (flattenPaths tT dT cmds cache) =
      flattenPaths tT dT cmds cache := by
  by_cases h0 : 0 < cache.paths.length
  · have h1 : flattenPaths tT dT cmds cache = cache := by
      unfold flattenPaths
      rw [if_pos h0]
    rw [h1, h1]
  · have hcnil : cache.paths = [] := List.length_eq_zero.mp (by omega)
    by_cases hm : countMoveTo cmds = 0
    · have h2 := flattenPaths_of_no_moveTo tT dT cmds cache hcnil hm
      have h3 := flattenPaths_of_no_moveTo tT dT cmds
        { points := cache.points, paths := [], bounds := resetBounds } rfl hm
      rw [h2, h3]
    · have hw : 0 < (cmds.foldl (flattenStep tT dT) cache).paths.length := by
        rw [paths_length_walk, hcnil]
        simp
        omega
      have hA : flattenPaths tT dT cmds cache =
          { points := (flattenPostList dT (cmds.foldl (flattenStep tT dT) cache).points
              resetBounds (cmds.foldl (flattenStep tT dT) cache).paths).1,
            paths := (flattenPostList dT (cmds.foldl (flattenStep tT dT) cache).points
              resetBounds (cmds.foldl (flattenStep tT dT) cache).paths).2.2,
            bounds := (flattenPostList dT (cmds.foldl (flattenStep tT dT) cache).points
              resetBounds (cmds.foldl (flattenStep tT dT) cache).paths).2.1 } := by
        unfold flattenPaths
        rw [if_neg (by omega)]
      rw [hA]
      unfold flattenPaths
      rw [if_pos]

      show 0 < (flattenPostList dT _ resetBounds _).2.2.length
      rw [postList_paths_length]
      exact hw

theorem pathCross_concat : ∀ (l : List NvgPoint) (a : NvgPoint),
    pathCross (l ++ [a]) =
      pathCross l + (match l.getLast? with | none => 0 | some x => crossP x a)
  | [], a => by simp [pathCross]
  | [x], a => by simp [pathCross]
  | x :: y :: t, a => by
    have ih := pathCross_concat (y :: t) a
    have h1 : pathCross ((x :: y :: t) ++ [a]) = crossP x y + pathCross ((y :: t) ++ [a]) := rfl
    rw [h1, ih, List.getLast?_cons_cons]
    have h2 : pathCross (x :: y :: t) = crossP x y + pathCross (y :: t) := rfl
    rw [h2]
    ring

theorem pathCross_reverse : ∀ l : List NvgPoint, pathCross l.reverse = -pathCross l
  | [] => by simp [pathCross]
  | [x] => by simp [pathCross]
  | x :: y :: t => by
    have ih := pathCross_reverse (y :: t)
    rw [List.reverse_cons, pathCross_concat, List.getLast?_reverse, ih]
    simp only [List.head?_cons]
    have h2 : pathCross (x :: y :: t) = crossP x y + pathCross (y :: t) := rfl
    rw [h2]
    unfold crossP
    ring

theorem shoelace_reverse (l : List NvgPoint) : shoelace l.reverse = -shoelace l := by
  cases l with
  | nil => simp [shoelace]
  | cons p rest =>
    have hz : (p :: rest).getLast? = some ((p :: rest).getLast (by simp)) :=
      List.getLast?_eq_getLast _ _
    unfold shoelace
    rw [List.head?_reverse, List.getLast?_reverse, hz]
    simp only [List.head?_cons]
    show pathCross (p :: rest).reverse + crossP p ((p :: rest).getLast (by simp)) =
      -(pathCross (p :: rest) + crossP ((p :: rest).getLast (by simp)) p)
    rw [pathCross_reverse]
    unfold crossP
    ring

theorem polyArea_reverse (l : List NvgPoint) : polyArea l.reverse = -polyArea l := by
  unfold polyArea
  rw [shoelace_reverse]
  ring

theorem polyArea_of_length_le_two (l : List NvgPoint) (h : l.length ≤ 2) : polyArea l = 0 := by
  match l with
  | [] => simp [polyArea, shoelace]
  | [p] =>
    show (pathCross [p] + crossP p p) / 2 = 0
    simp [pathCross, crossP]
  | [p, q] =>
    show (pathCross [p, q] + crossP q p) / 2 = 0
    have h1 : pathCross [p, q] = crossP p q + pathCross [q] := rfl
    rw [h1]
    simp only [pathCross]
    unfold crossP
    ring
  | p :: q :: r :: t => simp at h

theorem length_polyReverse (pts : List NvgPoint) (f c : ℕ) :
    (polyReverse pts f c).length = pts.length := by
  simp [polyReverse, List.length_append, List.length_take, List.length_reverse,
    List.length_drop]
  omega

theorem take_polyReverse (pts : List NvgPoint) (f c : ℕ) (h : f + c ≤ pts.length) :
    (polyReverse pts f c).take f = pts.take f := by
  simp only [polyReverse]
  rw [List.take_append_eq_append_take]
  have hmin : min f pts.length = f := by omega
  simp [List.take_take, List.length_take, hmin]

theorem drop_polyReverse (pts : List NvgPoint) (f c : ℕ) (h : f + c ≤ pts.length) :
    (polyReverse pts f c).drop (f + c) = pts.drop (f + c) := by
  simp only [polyReverse, ← List.append_assoc]
  rw [List.drop_append_eq_append_drop]
  have hAB : (pts.take f ++ ((pts.drop f).take c).reverse).length = f + c := by
    simp [List.length_append, List.length_take, List.length_reverse, List.length_drop]
    omega
  rw [hAB, List.drop_eq_nil_of_le (le_of_eq hAB), Nat.sub_self, List.drop_zero,
    List.nil_append]

theorem seg_polyReverse (pts : List NvgPoint) (f c : ℕ) (h : f + c ≤ pts.length) :
    ((polyReverse pts f c).drop f).take c = ((pts.drop f).take c).reverse := by
  simp only [polyReverse]
  rw [List.drop_append_eq_append_drop, List.drop_append_eq_append_drop]
  have hA : (pts.take f).length = f := by
    simp [List.length_take]
    omega
  have hAB : (pts.take f ++ ((pts.drop f).take c).reverse).length = f + c := by
    simp [List.length_append, List.length_take, List.length_reverse, List.length_drop]
    omega
  rw [hA, List.drop_eq_nil_of_le (le_of_eq hA), Nat.sub_self, List.drop_zero,
    List.nil_append, hAB, Nat.sub_eq_zero_of_le (by omega), List.drop_zero,
    List.take_append_eq_append_take]
  have hB : (((pts.drop f).take c).reverse).length = c := by
    simp [List.length_reverse, List.length_take, List.length_drop]
    omega
  rw [hB, Nat.sub_self, List.take_zero, List.append_nil, List.take_of_length_le (le_of_eq hB)]

theorem take_mono_eq {l l2 : List NvgPoint} {m k : ℕ}
    (h : l.take m = l2.take m) (hk : k ≤ m) : l.take k = l2.take k := by
  calc l.take k = (l.take m).take k := by
        rw [List.take_take]
        congr 1
        omega
    _ = (l2.take m).take k := by rw [h]
    _ = l2.take k := by
        rw [List.take_take]
        congr 1
        omega

theorem seg_of_take_eq {l l2 : List NvgPoint} {m f c : ℕ}
    (h : l.take m = l2.take m) (hfc : f + c ≤ m) :
    (l.drop f).take c = (l2.drop f).take c := by
  have h1 : ∀ x : List NvgPoint, ((x.take m).drop f).take c = (x.drop f).take c := by
    intro x
    rw [List.drop_take, List.take_take]
    congr 1
    omega
  rw [← h1 l, ← h1 l2, h]

theorem minF_le_left (a b : ℚ) : minF a b ≤ a := by
  unfold minF
  split_ifs <;> linarith

theorem minF_le_right (a b : ℚ) : minF a b ≤ b := by
  unfold minF
  split_ifs <;> linarith

theorem le_maxF_left (a b : ℚ) : a ≤ maxF a b := by
  unfold maxF
  split_ifs <;> linarith

theorem le_maxF_right (a b : ℚ) : b ≤ maxF a b := by
  unfold maxF
  split_ifs <;> linarith

theorem boundsLE_refl (b : NvgBounds) : boundsLE b b :=
  ⟨le_refl _, le_refl _, le_refl _, le_refl _⟩

theorem boundsLE_trans {a b c : NvgBounds} (h1 : boundsLE a b) (h2 : boundsLE b c) :
    boundsLE a c :=
  ⟨le_trans h2.1 h1.1, le_trans h2.2.1 h1.2.1,
   le_trans h1.2.2.1 h2.2.2.1, le_trans h1.2.2.2 h2.2.2.2⟩

theorem withinB_mono {b bb : NvgBounds} {q : NvgPoint} (hle : boundsLE b bb)
    (h : withinB b q) : withinB bb q :=
  ⟨le_trans hle.1 h.1, le_trans h.2.1 hle.2.2.1,
   le_trans hle.2.1 h.2.2.1, le_trans h.2.2.2 hle.2.2.2⟩

theorem foldPointBounds_widens (l : List NvgPoint) :
    ∀ b : NvgBounds, boundsLE b (foldPointBounds b l) := by
  induction l with
  | nil => intro b; exact boundsLE_refl b
  | cons q t ih =>
    intro b
    show boundsLE b
      (foldPointBounds ⟨minF b.xmin q.x, minF b.ymin q.y, maxF b.xmax q.x, maxF b.ymax q.y⟩ t)
    refine boundsLE_trans ?_ (ih _)
    exact ⟨minF_le_left _ _, minF_le_left _ _, le_maxF_left _ _, le_maxF_left _ _⟩

theorem foldPointBounds_mem (l : List NvgPoint) :
    ∀ (b : NvgBounds) (q : NvgPoint), q ∈ l → withinB (foldPointBounds b l) q := by
  induction l with
  | nil =>
    intro b q h
    simp at h
  | cons p t ih =>
    intro b q h
    show withinB
      (foldPointBounds ⟨minF b.xmin p.x, minF b.ymin p.y, maxF b.xmax p.x, maxF b.ymax p.y⟩ t) q
    rcases List.mem_cons.mp h with rfl | h2
    · refine withinB_mono (foldPointBounds_widens t _) ?_
      exact ⟨minF_le_right _ _, le_maxF_right _ _, minF_le_right _ _, le_maxF_right _ _⟩
    · exact ih _ q h2

theorem mem_drop_take_append {l : List NvgPoint} {k : ℕ} {q : NvgPoint} (h : q ∈ l) :
    q ∈ l.drop k ++ l.take k := by
  rw [← List.take_append_drop k l] at h
  rcases List.mem_append.mp h with h1 | h1
  · exact List.mem_append.mpr (Or.inr h1)
  · exact List.mem_append.mpr (Or.inl h1)

theorem stripPath_eq_of_some (dT : ℚ) (pts : List NvgPoint) (path : NvgPath)
    (p1 p0 : NvgPoint)
    (hh : (pathPoints pts path).head? = some p1)
    (hl : (pathPoints pts path).getLast? = some p0) :
    stripPath dT pts path =
      if ptEquals p0.x p0.y p1.x p1.y dT = true ∧ 2 < path.count then
        { path with count := path.count - 1, closed := true }
      else path := by
  simp only [stripPath]
  rw [hh, hl]

theorem stripPath_eq_of_none (dT : ℚ) (pts : List NvgPoint) (path : NvgPath)
    (hh : (pathPoints pts path).head? = none) :
    stripPath dT pts path = path := by
  simp only [stripPath]
  rw [hh]

theorem stripPath_facts (dT : ℚ) (pts : List NvgPoint) (p : NvgPath) (h1 : 1 ≤ p.count) :
    (stripPath dT pts p).first = p.first ∧ (stripPath dT pts p).winding = p.winding ∧
    1 ≤ (stripPath dT pts p).count ∧ (stripPath dT pts p).count ≤ p.count := by
  cases hh : (pathPoints pts p).head? with
  | none =>
    rw [stripPath_eq_of_none dT pts p hh]
    exact ⟨rfl, rfl, h1, le_refl _⟩
  | some p1 =>
    have hne : pathPoints pts p ≠ [] := by
      intro h0
      rw [h0] at hh
      simp at hh
    obtain ⟨p0, hl⟩ := Option.isSome_iff_exists.mp (List.getLast?_isSome.mpr hne)
    rw [stripPath_eq_of_some dT pts p p1 p0 hh hl]
    split_ifs with hcond
    · obtain ⟨-, h2⟩ := hcond
      refine ⟨rfl, rfl, ?_, ?_⟩
      · show 1 ≤ p.count - 1
        omega
      · show p.count - 1 ≤ p.count
        omega
    · exact ⟨rfl, rfl, h1, le_refl _⟩

theorem length_enforceWinding (pts : List NvgPoint) (path : NvgPath) :
    (enforceWinding pts path).length = pts.length := by
  simp only [enforceWinding]
  split_ifs <;> simp [length_polyReverse]

theorem take_first_enforceWinding (pts : List NvgPoint) (path : NvgPath)
    (h : path.first + path.count ≤ pts.length) :
    (enforceWinding pts path).take path.first = pts.take path.first := by
  simp only [enforceWinding]
  split_ifs with h1 h2
  · exact take_polyReverse pts path.first path.count h
  · rfl
  · rfl

theorem enforceWinding_windingOK (pts : List NvgPoint) (path : NvgPath)
    (h : path.first + path.count ≤ pts.length) :
    windingOK (pathPoints (enforceWinding pts path) path) path.winding := by
  simp only [enforceWinding]
  split_ifs with h1 h2
  · have hseg : pathPoints (polyReverse pts path.first path.count) path
        = (pathPoints pts path).reverse := seg_polyReverse pts path.first path.count h
    constructor
    · intro hw
      rw [hseg, polyArea_reverse]
      rcases h2 with ⟨hw2, ha⟩ | ⟨hw2, ha⟩
      · linarith
      · rw [hw] at hw2
        simp at hw2
    · intro hw
      rw [hseg, polyArea_reverse]
      rcases h2 with ⟨hw2, ha⟩ | ⟨hw2, ha⟩
      · rw [hw] at hw2
        simp at hw2
      · linarith
  · constructor
    · intro hw
      by_contra hlt
      push_neg at hlt
      exact h2 (Or.inl ⟨hw, by linarith⟩)
    · intro hw
      by_contra hlt
      push_neg at hlt
      exact h2 (Or.inr ⟨hw, by linarith⟩)
  · have hlen : (pathPoints pts path).length ≤ 2 := by
      simp [pathPoints, List.length_take, List.length_drop]
      omega
    have hz := polyArea_of_length_le_two _ hlen
    exact ⟨fun _ => le_of_eq hz.symm, fun _ => le_of_eq hz⟩

theorem flattenPostList_cons (dT : ℚ) (pts : List NvgPoint) (b : NvgBounds)
    (p : NvgPath) (rest : List NvgPath) :
    flattenPostList dT pts b (p :: rest) =
      ((flattenPostList dT (enforceWinding pts (stripPath dT pts p))
          (boundsOfPath (enforceWinding pts (stripPath dT pts p)) b (stripPath dT pts p))
          rest).1,
       (flattenPostList dT (enforceWinding pts (stripPath dT pts p))
          (boundsOfPath (enforceWinding pts (stripPath dT pts p)) b (stripPath dT pts p))
          rest).2.1,
       stripPath dT pts p ::
         (flattenPostList dT (enforceWinding pts (stripPath dT pts p))
            (boundsOfPath (enforceWinding pts (stripPath dT pts p)) b (stripPath dT pts p))
            rest).2.2) := rfl

theorem flattenPostList_spec (dT : ℚ) :
    ∀ (paths : List NvgPath) (pts : List NvgPoint) (b : NvgBounds) (s : ℕ),
      rangesFrom s paths pts.length → CountsOK paths →
      (flattenPostList dT pts b paths).1.length = pts.length ∧
      (flattenPostList dT pts b paths).1.take s = pts.take s ∧
      boundsLE b (flattenPostList dT pts b paths).2.1 ∧
      ∀ p2 ∈ (flattenPostList dT pts b paths).2.2,
        1 ≤ p2.count ∧
        p2.first + p2.count ≤ pts.length ∧
        windingOK (pathPoints (flattenPostList dT pts b paths).1 p2) p2.winding ∧
        ∀ q ∈ pathPoints (flattenPostList dT pts b paths).1 p2,
          withinB (flattenPostList dT pts b paths).2.1 q := by
  intro paths
  induction paths with
  | nil =>
    intro pts b s hr hc
    refine ⟨rfl, rfl, boundsLE_refl b, ?_⟩
    intro p2 hp2
    simp [flattenPostList] at hp2
  | cons p rest ih =>
    intro pts b s hr hc
    obtain ⟨hfirst, hrest⟩ := hr
    subst hfirst
    have hF0 : p.first + p.count ≤ pts.length := rangesFrom_le _ _ _ hrest
    have hp1 : 1 ≤ p.count := hc p (List.mem_cons_self _ _)
    have hs1 := stripPath_facts dT pts p hp1
    have hr1 : (stripPath dT pts p).first + (stripPath dT pts p).count ≤ pts.length := by
      rw [hs1.1]
      have h4 := hs1.2.2.2
      omega
    have hfc : (stripPath dT pts p).first + (stripPath dT pts p).count ≤
        p.first + p.count := by
      rw [hs1.1]
      have h4 := hs1.2.2.2
      omega
    have hlen1 : (enforceWinding pts (stripPath dT pts p)).length = pts.length :=
      length_enforceWinding pts _
    have htake1 : (enforceWinding pts (stripPath dT pts p)).take p.first =
        pts.take p.first := by
      rw [← hs1.1]
      exact take_first_enforceWinding pts _ hr1
    have hwOK := enforceWinding_windingOK pts (stripPath dT pts p) hr1
    have hranges2 : rangesFrom (p.first + p.count) rest
        (enforceWinding pts (stripPath dT pts p)).length := by
      rw [hlen1]
      exact hrest
    have hcounts2 : CountsOK rest := fun q hq => hc q (List.mem_cons_of_mem _ hq)
    obtain ⟨ih_len, ih_take, ih_ble, ih_paths⟩ :=
      ih (enforceWinding pts (stripPath dT pts p))
        (boundsOfPath (enforceWinding pts (stripPath dT pts p)) b (stripPath dT pts p))
        (p.first + p.count) hranges2 hcounts2
    rw [flattenPostList_cons]
    have hseg2 : pathPoints
        (flattenPostList dT (enforceWinding pts (stripPath dT pts p))
          (boundsOfPath (enforceWinding pts (stripPath dT pts p)) b (stripPath dT pts p))
          rest).1 (stripPath dT pts p) =
        pathPoints (enforceWinding pts (stripPath dT pts p)) (stripPath dT pts p) := by
      unfold pathPoints
      exact seg_of_take_eq ih_take hfc
    refine ⟨?_, ?_, ?_, ?_⟩
    · rw [ih_len, hlen1]
    · have h5 := take_mono_eq ih_take (Nat.le_add_right p.first p.count)
      rw [h5, htake1]
    · exact boundsLE_trans (foldPointBounds_widens _ b) ih_ble
    · intro p2 hp2
      rcases List.mem_cons.mp hp2 with rfl | h2
      · refine ⟨hs1.2.2.1, hr1, ?_, ?_⟩
        · rw [hseg2]
          exact hwOK
        · intro q hq
          rw [hseg2] at hq
          have hmem : withinB
              (boundsOfPath (enforceWinding pts (stripPath dT pts p)) b (stripPath dT pts p)) q := by
            show withinB (foldPointBounds b _) q
            exact foldPointBounds_mem _ b q (mem_drop_take_append hq)
          exact withinB_mono ih_ble hmem
      · obtain ⟨c1, c2, c3, c4⟩ := ih_paths p2 h2
        refine ⟨c1, ?_, c3, c4⟩
        rw [hlen1] at c2
        exact c2

theorem flattenFrom_eq (tT dT : ℚ) (cmds : List NvgCommand) (b : NvgBounds) :
    flattenFrom tT dT cmds b =
      { points := (flattenPostList dT
          (cmds.foldl (flattenStep tT dT) { points := [], paths := [], bounds := b }).points
          resetBounds
          (cmds.foldl (flattenStep tT dT) { points := [], paths := [], bounds := b }).paths).1,
        paths := (flattenPostList dT
          (cmds.foldl (flattenStep tT dT) { points := [], paths := [], bounds := b }).points
          resetBounds
          (cmds.foldl (flattenStep tT dT) { points := [], paths := [], bounds := b }).paths).2.2,
        bounds := (flattenPostList dT
          (cmds.foldl (flattenStep tT dT) { points := [], paths := [], bounds := b }).points
          resetBounds
          (cmds.foldl (flattenStep tT dT) { points := [], paths := [], bounds := b }).paths).2.1 } := by
  unfold flattenFrom flattenPaths
  rw [if_neg (by simp)]

theorem flattenFrom_paths_spec (tT dT : ℚ) (cmds : List NvgCommand) (b : NvgBounds) :
    ∀ p2 ∈ (flattenFrom tT dT cmds b).paths,
      1 ≤ p2.count ∧
      windingOK (pathPoints (flattenFrom tT dT cmds b).points p2) p2.winding ∧
      ∀ q ∈ pathPoints (flattenFrom tT dT cmds b).points p2,
        withinB (flattenFrom tT dT cmds b).bounds q := by
  have hinv : WalkInv
      (cmds.foldl (flattenStep tT dT) { points := [], paths := [], bounds := b }) :=
    walkInv_walk tT dT cmds _ ⟨rfl, by intro p hp; simp at hp⟩
  obtain ⟨hr, hc⟩ := hinv
  obtain ⟨-, -, -, hspec⟩ := flattenPostList_spec dT
    (cmds.foldl (flattenStep tT dT) { points := [], paths := [], bounds := b }).paths
    (cmds.foldl (flattenStep tT dT) { points := [], paths := [], bounds := b }).points
    resetBounds 0 hr hc
  rw [flattenFrom_eq]
  intro p2 hp2
  obtain ⟨c1, c2, c3, c4⟩ := hspec p2 hp2
  exact ⟨c1, c3, c4⟩

/-- C4: after a flatten pass from a cleared cache, every closed sub-path
declared Solid has nonnegative signed polygon area in its final
(possibly reversed) point order, and every closed sub-path declared
Hole has nonpositive signed area — the winding enforcement of the pass
reverses a sub-path whose area contradicts its declared winding, and
reversal negates the cyclic shoelace area. -/
theorem winding_area_invariant (tT dT : ℚ) (cmds : List NvgCommand) (b : NvgBounds) :
    ∀ p ∈ (flattenFrom tT dT cmds b).paths, p.closed = true →
      (p.winding = Winding.solid →
        0 ≤ polyArea (pathPoints (flattenFrom tT dT cmds b).points p)) ∧
      (p.winding = Winding.hole →
        polyArea (pathPoints (flattenFrom tT dT cmds b).points p) ≤ 0) := by
  intro p hp _
  obtain ⟨-, hwOK, -⟩ := flattenFrom_paths_spec tT dT cmds b p hp
  exact ⟨hwOK.1, hwOK.2⟩

theorem rectCmds_flatten_eval :
    flattenFrom (1/4) (1/100) rectCmds ⟨0, 0, 0, 0⟩ =
      { points := [⟨100, 0, 1⟩, ⟨100, 50, 1⟩, ⟨0, 50, 1⟩, ⟨0, 0, 1⟩],
        paths := [{ first := 0, count := 4, closed := true, winding := Winding.solid }],
        bounds := ⟨0, 0, 100, 50⟩ } := by
  norm_num [rectCmds, flattenFrom, flattenPaths, flattenStep, NvgPathCache.addPath,
    NvgPathCache.addPoint, NvgPathCache.closePath, NvgPathCache.lastPoint, updateLast,
    ptEquals, ptCorner, flattenPostList, flattenPostPath, stripPath, enforceWinding,
    polyReverse, pathPoints, polyArea, shoelace, pathCross, crossP, boundsOfPath,
    foldPointBounds, resetBounds, minF, maxF, List.getLastD, List.getLast?_cons_cons,
    List.foldl]

/-- Witness for C4 at the rectangle scenario: the single flattened
sub-path is closed, declared Solid, and its signed area is
nonnegative. -/
theorem winding_area_invariant_witness :
    ((⟨0, 4, true, Winding.solid⟩ : NvgPath) ∈
        (flattenFrom (1/4) (1/100) rectCmds ⟨0, 0, 0, 0⟩).paths ∧
      (⟨0, 4, true, Winding.solid⟩ : NvgPath).closed = true) ∧
    (((⟨0, 4, true, Winding.solid⟩ : NvgPath).winding = Winding.solid →
        0 ≤ polyArea (pathPoints (flattenFrom (1/4) (1/100) rectCmds ⟨0, 0, 0, 0⟩).points
          ⟨0, 4, true, Winding.solid⟩)) ∧
      ((⟨0, 4, true, Winding.solid⟩ : NvgPath).winding = Winding.hole →
        polyArea (pathPoints (flattenFrom (1/4) (1/100) rectCmds ⟨0, 0, 0, 0⟩).points
          ⟨0, 4, true, Winding.solid⟩) ≤ 0)) :=
  ⟨⟨by rw [rectCmds_flatten_eval]; exact List.mem_singleton.mpr rfl, rfl⟩,
   winding_area_invariant (1/4) (1/100) rectCmds ⟨0, 0, 0, 0⟩
     ⟨0, 4, true, Winding.solid⟩
     (by rw [rectCmds_flatten_eval]; exact List.mem_singleton.mpr rfl) rfl⟩

/-- C5: after a flatten pass from a cleared cache, every point of every
sub-path lies inside the computed bounding box. -/
theorem bounds_contain_all_points (tT dT : ℚ) (cmds : List NvgCommand) (b : NvgBounds) :
    ∀ p ∈ (flattenFrom tT dT cmds b).paths,
      ∀ q ∈ pathPoints (flattenFrom tT dT cmds b).points p,
        (flattenFrom tT dT cmds b).bounds.xmin ≤ q.x ∧
        q.x ≤ (flattenFrom tT dT cmds b).bounds.xmax ∧
        (flattenFrom tT dT cmds b).bounds.ymin ≤ q.y ∧
        q.y ≤ (flattenFrom tT dT cmds b).bounds.ymax := by
  intro p hp q hq
  obtain ⟨-, -, hin⟩ := flattenFrom_paths_spec tT dT cmds b p hp
  exact hin q hq

/-- Witness for C5 at the rectangle scenario: the corner `(100, 0)` of
the flattened rectangle lies inside the computed bounds. -/
theorem bounds_contain_all_points_witness :
    ((⟨0, 4, true, Winding.solid⟩ : NvgPath) ∈
        (flattenFrom (1/4) (1/100) rectCmds ⟨0, 0, 0, 0⟩).paths ∧
      (⟨100, 0, 1⟩ : NvgPoint) ∈
        pathPoints (flattenFrom (1/4) (1/100) rectCmds ⟨0, 0, 0, 0⟩).points
          ⟨0, 4, true, Winding.solid⟩) ∧
    ((flattenFrom (1/4) (1/100) rectCmds ⟨0, 0, 0, 0⟩).bounds.xmin ≤
        (⟨100, 0, 1⟩ : NvgPoint).x ∧
      (⟨100, 0, 1⟩ : NvgPoint).x ≤
        (flattenFrom (1/4) (1/100) rectCmds ⟨0, 0, 0, 0⟩).bounds.xmax ∧
      (flattenFrom (1/4) (1/100) rectCmds ⟨0, 0, 0, 0⟩).bounds.ymin ≤
        (⟨100, 0, 1⟩ : NvgPoint).y ∧
      (⟨100, 0, 1⟩ : NvgPoint).y ≤
        (flattenFrom (1/4) (1/100) rectCmds ⟨0, 0, 0, 0⟩).bounds.ymax) :=
  ⟨⟨by rw [rectCmds_flatten_eval]; exact List.mem_singleton.mpr rfl,
    by rw [rectCmds_flatten_eval]; simp [pathPoints]⟩,
   bounds_contain_all_points (1/4) (1/100) rectCmds ⟨0, 0, 0, 0⟩
     ⟨0, 4, true, Winding.solid⟩
     (by rw [rectCmds_flatten_eval]; exact List.mem_singleton.mpr rfl)
     ⟨100, 0, 1⟩
     (by rw [rectCmds_flatten_eval]; simp [pathPoints])⟩

/-- C8 as amended: whenever the panic guard of `Stroke` does not fire on
the flatten result, every sub-path entering stroke expansion has at
least two points — the walk gives every sub-path at least one point,
and the guard excludes exactly the single-point sub-paths. -/
theorem stroke_min_two_points (tT dT : ℚ) (cmds : List NvgCommand) (b : NvgBounds)
    (hguard : strokeGuardFiresOn (flattenFrom tT dT cmds b) = false) :
    ∀ p ∈ (flattenFrom tT dT cmds b).paths, 2 ≤ p.count := by
  intro p hp
  obtain ⟨c1, -, -⟩ := flattenFrom_paths_spec tT dT cmds b p hp
  simp only [strokeGuardFiresOn, List.any_eq_false] at hguard
  have h2 := hguard p hp
  simp at h2
  omega

/-- Witness for C8 (amended) at the rectangle scenario: the guard does
not fire and the sub-path has at least two points. -/
theorem stroke_min_two_points_witness :
    strokeGuardFiresOn (flattenFrom (1/4) (1/100) rectCmds ⟨0, 0, 0, 0⟩) = false ∧
    ((⟨0, 4, true, Winding.solid⟩ : NvgPath) ∈
        (flattenFrom (1/4) (1/100) rectCmds ⟨0, 0, 0, 0⟩).paths ∧
      2 ≤ (⟨0, 4, true, Winding.solid⟩ : NvgPath).count) :=
  ⟨by rw [rectCmds_flatten_eval]; rfl,
   by rw [rectCmds_flatten_eval]; exact List.mem_singleton.mpr rfl,
   stroke_min_two_points (1/4) (1/100) rectCmds ⟨0, 0, 0, 0⟩
     (by rw [rectCmds_flatten_eval]; rfl)
     ⟨0, 4, true, Winding.solid⟩
     (by rw [rectCmds_flatten_eval]; exact List.mem_singleton.mpr rfl)⟩

end Nanovgo
